import Mathlib

/-!
Shallow embedding of the `sofia` CENC code (`encryption.go`): the PSSH, TENC
and SENC box parsers and the AES-CTR sample decryptor.  Byte buffers are
`List Nat` (each element a byte value), Go's fixed-width unsigned integers are
`Nat` with explicit `% 2^w` where Go's wraparound matters, and Go slice-bounds
panics are recorded explicitly (an `oob` flag on the cursor, `Option` results
for the decryptor).
-/

/-- Big-endian value of a byte string (e.g. `beVal [1,0] = 256`). -/
def beVal (l : List Nat) : Nat := l.foldl (fun a b => a * 256 + b) 0

/-- Big-endian encoding of `v % 256^w` into exactly `w` bytes. -/
def natToBe : Nat → Nat → List Nat
  | 0, _ => []
  | w + 1, v => natToBe w (v / 256) ++ [v % 256]

/-- Semantics of Go's `copy(dst, src)`: overwrite the first
`min (length dst) (length src)` elements of `dst` with those of `src`,
keeping the rest of `dst`. -/
def goCopy (dst src : List Nat) : List Nat :=
  src.take (min dst.length src.length) ++ dst.drop (min dst.length src.length)

/-- Modelled from the spec: the low-level sequential big-endian cursor
(`parser` in the Go code, an external collaborator not present in the
repository's core sources).  It holds the buffer and a read offset.  Reading
past the end of the buffer is a Go slice-bounds panic; the embedding records
that event in the sticky `oob` flag instead of aborting. -/
structure Parser where
  data : List Nat
  offset : Nat
  oob : Bool
deriving Repr, DecidableEq

/-- Modelled from the spec: `parser.Bytes(n)` returns the next `n` raw bytes
and advances the offset; reading past the end sets the `oob` (panic) flag. -/
def Parser.bytes (p : Parser) (n : Nat) : List Nat × Parser :=
  ((p.data.drop p.offset).take n,
   ⟨p.data, p.offset + n, p.oob || decide (p.data.length < p.offset + n)⟩)

/-- Modelled from the spec: `parser.Byte()` reads one byte. -/
def Parser.byte (p : Parser) : Nat × Parser :=
  ((p.bytes 1).1.getD 0 0, (p.bytes 1).2)

/-- Modelled from the spec: `parser.Uint16()` reads a big-endian 16-bit value. -/
def Parser.uint16 (p : Parser) : Nat × Parser :=
  (beVal (p.bytes 2).1, (p.bytes 2).2)

/-- Modelled from the spec: `parser.Uint32()` reads a big-endian 32-bit value. -/
def Parser.uint32 (p : Parser) : Nat × Parser :=
  (beVal (p.bytes 4).1, (p.bytes 4).2)

/-- The generic box header: 4-byte big-endian size then 4-byte type code. -/
structure BoxHeader where
  Size : Nat
  BoxType : List Nat
deriving Repr, DecidableEq

/-- Go zero value of `BoxHeader`. -/
def BoxHeader.empty : BoxHeader := ⟨0, List.replicate 4 0⟩

/-- Modelled from the spec: the generic `BoxHeader.Parse` (an external
collaborator not present in the repository's core sources) reads the 4-byte
big-endian size and the 4-byte type code, failing when fewer than 8 bytes are
available. -/
def BoxHeader.Parse (data : List Nat) : Except String BoxHeader :=
  if data.length < 8 then Except.error "box header too short"
  else Except.ok ⟨beVal (data.take 4), (data.drop 4).take 4⟩

/-- `PsshBox` from `encryption.go`. -/
structure PsshBox where
  Header : BoxHeader
  Version : Nat
  Flags : List Nat
  SystemID : List Nat
  KIDs : List (List Nat)
  Data : List Nat
deriving Repr, DecidableEq

/-- Go zero value of `PsshBox`. -/
def PsshBox.empty : PsshBox :=
  ⟨BoxHeader.empty, 0, List.replicate 3 0, List.replicate 16 0, [], []⟩

/-- The KID-reading loop of `PsshBox.Parse`: `kidCount` iterations of
`copy(b.KIDs[i][:], p.Bytes(16))` into zeroed 16-byte arrays. -/
def readKIDs : Nat → Parser → List (List Nat) × Parser
  | 0, p => ([], p)
  | n + 1, p =>
    let kid := goCopy (List.replicate 16 0) (p.bytes 16).1
    let r := readKIDs n (p.bytes 16).2
    (kid :: r.1, r.2)

/-- The common tail of `PsshBox.Parse`: the 4-byte data-size field and the
declared trailing data bytes. -/
def psshTail (b : PsshBox) (p : Parser) : Option String × PsshBox × Bool :=
  if p.data.length < p.offset + 4 then (some "pssh too short for data size", b, p.oob)
  else
    let dataSize := (p.uint32).1
    let p1 := (p.uint32).2
    if p1.data.length < p1.offset + dataSize then (some "pssh size mismatch", b, p1.oob)
    else (none, { b with Data := (p1.bytes dataSize).1 }, (p1.bytes dataSize).2.oob)

/-- `PsshBox.Parse` from `encryption.go`.  The result is
`(error?, receiver state, out-of-bounds-read flag)`; the receiver is mutated
field by field exactly as the Go method does, and the KID bounds check uses
the 32-bit product `kidCount * 16 % 2^32` exactly as Go's `uint32`
multiplication does. -/
def PsshBox.Parse (b : PsshBox) (data : List Nat) : Option String × PsshBox × Bool :=
  match BoxHeader.Parse data with
  | Except.error e => (some e, b, false)
  | Except.ok hdr =>
    if data.length < 28 then (some "pssh too short", { b with Header := hdr }, false)
    else
      let p0 : Parser := ⟨data, 8, false⟩
      let vf := (p0.bytes 4).1
      let p1 := (p0.bytes 4).2
      let b1 : PsshBox :=
        { b with Header := hdr, Version := vf.getD 0 0, Flags := goCopy b.Flags (vf.drop 1) }
      let sid := (p1.bytes 16).1
      let p2 := (p1.bytes 16).2
      let b2 : PsshBox := { b1 with SystemID := goCopy b1.SystemID sid }
      if 0 < b2.Version then
        if data.length < p2.offset + 4 then (some "pssh too short for KID count", b2, p2.oob)
        else
          let kidCount := (p2.uint32).1
          let p3 := (p2.uint32).2
          if data.length < p3.offset + (kidCount * 16) % 4294967296 then
            (some "pssh too short for KIDs", b2, p3.oob)
          else
            let r := readKIDs kidCount p3
            psshTail { b2 with KIDs := r.1 } r.2
      else psshTail b2 p2

/-- `TencBox` from `encryption.go`. -/
structure TencBox where
  Header : BoxHeader
  Version : Nat
  Flags : Nat
  DefaultIsProtected : Nat
  DefaultPerSampleIVSize : Nat
  DefaultKID : List Nat
  DefaultConstantIVSize : Nat
  DefaultConstantIV : List Nat
deriving Repr, DecidableEq

/-- Go zero value of `TencBox`. -/
def TencBox.empty : TencBox := ⟨BoxHeader.empty, 0, 0, 0, 0, List.replicate 16 0, 0, []⟩

/-- `TencBox.Parse` from `encryption.go`: version/flags word, version-0 payload
(2 reserved bytes, `isProtected`, `perSampleIVSize`, 16-byte KID) and the
conditional constant-IV tail, whose presence is decided by comparing the read
offset with the header's declared size. -/
def TencBox.Parse (b : TencBox) (data : List Nat) : Option String × TencBox × Bool :=
  match BoxHeader.Parse data with
  | Except.error e => (some e, b, false)
  | Except.ok hdr =>
    let b0 := { b with Header := hdr }
    let p0 : Parser := ⟨data, 8, false⟩
    if data.length < p0.offset + 4 then
      (some "tenc box too short for version/flags", b0, false)
    else
      let vf := (p0.uint32).1
      let p1 := (p0.uint32).2
      let b1 := { b0 with Version := (vf >>> 24) % 256, Flags := vf &&& 0x00FFFFFF }
      if b1.Version = 0 then
        if data.length < p1.offset + 20 then
          (some "tenc v0 box too short for required fields", b1, p1.oob)
        else
          let p2 := (p1.bytes 2).2
          let isProt := (p2.byte).1
          let p3 := (p2.byte).2
          let ivSize := (p3.byte).1
          let p4 := (p3.byte).2
          let kid := (p4.bytes 16).1
          let p5 := (p4.bytes 16).2
          let b2 :=
            { b1 with DefaultIsProtected := isProt, DefaultPerSampleIVSize := ivSize,
                      DefaultKID := goCopy b1.DefaultKID kid }
          if isProt = 1 ∧ ivSize = 0 then
            if p5.offset < hdr.Size then
              if data.length < p5.offset + 1 then
                (some "tenc box truncated before constant IV size", b2, p5.oob)
              else
                let civSize := (p5.byte).1
                let p6 := (p5.byte).2
                let b3 := { b2 with DefaultConstantIVSize := civSize }
                if data.length < p6.offset + civSize then
                  (some "tenc box truncated, not enough data for constant IV", b3, p6.oob)
                else
                  (none, { b3 with DefaultConstantIV := (p6.bytes civSize).1 },
                   (p6.bytes civSize).2.oob)
            else (none, b2, p5.oob)
          else (none, b2, p5.oob)
      else (none, b1, p1.oob)

/-- `SubsampleInfo` from `encryption.go` (`uint16` clear, `uint32` protected). -/
structure SubsampleInfo where
  BytesOfClearData : Nat
  BytesOfProtectedData : Nat
deriving Repr, DecidableEq

/-- `SampleEncryptionInfo` from `encryption.go`. -/
structure SampleEncryptionInfo where
  IV : List Nat
  Subsamples : List SubsampleInfo
deriving Repr, DecidableEq

/-- Go zero value of `SampleEncryptionInfo`. -/
def SampleEncryptionInfo.empty : SampleEncryptionInfo := ⟨[], []⟩

/-- `SencBox` from `encryption.go`. -/
structure SencBox where
  Header : BoxHeader
  Flags : Nat
  Samples : List SampleEncryptionInfo
deriving Repr, DecidableEq

/-- Go zero value of `SencBox`. -/
def SencBox.empty : SencBox := ⟨BoxHeader.empty, 0, []⟩

/-- The inner subsample loop of `SencBox.Parse`: reads `n` entries, each a
2-byte clear length followed by a 4-byte protected length.  On truncation the
remaining entries keep their zero values, exactly like the pre-allocated Go
slice. -/
def subsampleEntries : Nat → Parser → Option String × List SubsampleInfo × Parser
  | 0, p => (none, [], p)
  | n + 1, p =>
    if p.data.length < p.offset + 6 then
      (some "senc truncated while reading subsample", List.replicate (n + 1) ⟨0, 0⟩, p)
    else
      let c := (p.uint16).1
      let p1 := (p.uint16).2
      let pr := (p1.uint32).1
      let p2 := (p1.uint32).2
      let r := subsampleEntries n p2
      (r.1, ⟨c, pr⟩ :: r.2.1, r.2.2)

/-- The per-sample loop of `SencBox.Parse`: reads `n` entries, each an 8-byte
IV and, when `present`, a 2-byte subsample count followed by that many
subsample entries.  On truncation the remaining entries keep their zero
values, exactly like the pre-allocated Go slice. -/
def sencEntries (present : Bool) : Nat → Parser → Option String × List SampleEncryptionInfo × Parser
  | 0, p => (none, [], p)
  | n + 1, p =>
    if p.data.length < p.offset + 8 then
      (some "senc truncated while reading IV", List.replicate (n + 1) SampleEncryptionInfo.empty, p)
    else
      let iv := (p.bytes 8).1
      let p1 := (p.bytes 8).2
      if present then
        if p1.data.length < p1.offset + 2 then
          (some "senc truncated while reading subsample count",
           ⟨iv, []⟩ :: List.replicate n SampleEncryptionInfo.empty, p1)
        else
          let m := (p1.uint16).1
          let p2 := (p1.uint16).2
          let r := subsampleEntries m p2
          match r.1 with
          | some e =>
            (some e, ⟨iv, r.2.1⟩ :: List.replicate n SampleEncryptionInfo.empty, r.2.2)
          | none =>
            let r2 := sencEntries present n r.2.2
            (r2.1, ⟨iv, r.2.1⟩ :: r2.2.1, r2.2.2)
      else
        let r2 := sencEntries present n p1
        (r2.1, ⟨iv, []⟩ :: r2.2.1, r2.2.2)

/-- `SencBox.Parse` from `encryption.go`: 24-bit flags, 4-byte sample count,
then one `SampleEncryptionInfo` per declared sample. -/
def SencBox.Parse (b : SencBox) (data : List Nat) : Option String × SencBox × Bool :=
  match BoxHeader.Parse data with
  | Except.error e => (some e, b, false)
  | Except.ok hdr =>
    let b0 := { b with Header := hdr }
    if data.length < 16 then (some "senc too short", b0, false)
    else
      let p0 : Parser := ⟨data, 8, false⟩
      let fl := (p0.uint32).1 &&& 0x00FFFFFF
      let p1 := (p0.uint32).2
      let sampleCount := (p1.uint32).1
      let p2 := (p1.uint32).2
      let r := sencEntries (fl &&& 0x000002 != 0) sampleCount p2
      (r.1, { b0 with Flags := fl, Samples := r.2.1 }, r.2.2.oob)

/-- The CTR keystream derived from a block cipher `E` (blocks are 16-byte
strings) and a 16-byte IV: byte `k` of the keystream is byte `k % 16` of
`E` applied to the counter block `IV + k / 16` (big-endian, wrapping mod
`2^128`), exactly as Go's `cipher.NewCTR` produces it. -/
def ctrKS (E : List Nat → List Nat) (iv : List Nat) (k : Nat) : Nat :=
  ((E (natToBe 16 ((beVal iv + k / 16) % 2 ^ 128))).getD (k % 16) 0) % 256

/-- In-place `XORKeyStream` over the byte range `[lo, hi)` of `s`, the
keystream positioned at `pos` for the first byte of the range. -/
def xorChunk (s : List Nat) (lo hi pos : Nat) (ks : Nat → Nat) : List Nat :=
  List.ofFn fun i : Fin s.length =>
    if lo ≤ i.val ∧ i.val < hi then s.get i ^^^ ks (pos + (i.val - lo)) else s.get i

/-- The subsample loop of `DecryptSample`: skip the clear bytes, then decrypt
the protected bytes in place, clamping the end of the protected range to the
sample length.  `none` models the Go slice-bounds panic that fires when the
running offset has passed the end of the sample (`sample[off:end]` with
`off > end`). -/
def subsampleWalk (ks : Nat → Nat) : List SubsampleInfo → List Nat → Nat → Nat → Option (List Nat)
  | [], s, _, _ => some s
  | sub :: rest, s, off, pos =>
    let off1 := off + sub.BytesOfClearData
    if 0 < sub.BytesOfProtectedData then
      let e := min (off1 + sub.BytesOfProtectedData) s.length
      if e < off1 then none
      else subsampleWalk ks rest (xorChunk s off1 e pos ks) e (pos + (e - off1))
    else subsampleWalk ks rest s off1 pos

/-- `DecryptSample` from `encryption.go`, parametrised by the block cipher
`E` (Go's `cipher.Block.Encrypt` on 16-byte blocks).  `none` models a panic:
either `cipher.NewCTR`'s when the IV length differs from the block size, or
the slice-bounds panic inside the subsample loop.  A `some` result is the
mutated sample buffer. -/
def DecryptSample (sample : List Nat) (info : Option SampleEncryptionInfo)
    (E : List Nat → List Nat) : Option (List Nat) :=
  match info with
  | none => some sample
  | some inf =>
    if inf.IV.length = 0 then some sample
    else
      let iv := if inf.IV.length = 8 then goCopy (List.replicate 16 0) inf.IV else inf.IV
      if iv.length ≠ 16 then none
      else
        let ks := ctrKS E iv
        if inf.Subsamples.isEmpty then some (xorChunk sample 0 sample.length 0 ks)
        else subsampleWalk ks inf.Subsamples sample 0 0

/-- A block cipher whose output blocks are all-zero bytes (so the CTR
keystream is identically zero). -/
def cipherZeros : List Nat → List Nat := fun _ => List.replicate 16 0

/-- A block cipher whose output blocks are all-one bytes (so the CTR
keystream is identically one). -/
def cipherOnes : List Nat → List Nat := fun _ => List.replicate 16 1

/-- The sample-encryption info of the spec's worked example: an 8-byte IV and
subsamples `[{clear:10, protected:20}, {clear:5, protected:65}]`. -/
def sei1 : SampleEncryptionInfo := ⟨List.replicate 8 1, [⟨10, 20⟩, ⟨5, 65⟩]⟩

/-- The 16-byte CTR IV that `DecryptSample` builds from `sei1`'s 8-byte IV. -/
def iv1 : List Nat := goCopy (List.replicate 16 0) sei1.IV

/-- A valid TENC v0 box of declared size exactly 32: header, version/flags 0,
2 reserved bytes, `isProtected = 1`, `perSampleIVSize = 0`, 16-byte KID. -/
def tenc32 : List Nat :=
  [0, 0, 0, 32, 116, 101, 110, 99, 0, 0, 0, 0, 0, 0, 1, 0] ++ List.replicate 16 9

/-- A valid TENC v0 box of declared size 35 carrying a 2-byte constant IV. -/
def tenc35 : List Nat :=
  [0, 0, 0, 35, 116, 101, 110, 99, 0, 0, 0, 0, 0, 0, 1, 0] ++ List.replicate 16 9 ++ [2, 7, 8]

/-- A TENC box whose version byte is 1 (12 bytes: header + version/flags). -/
def tenc12 : List Nat := [0, 0, 0, 12, 116, 101, 110, 99, 1, 0, 0, 0]

/-- Completion condition for the subsample walk over a buffer of length
`len` starting at offset `off`: at every subsample with a positive protected
length, the offset after skipping the clear bytes is still within the sample
(otherwise the Go code's `sample[off:end]` slice panics). -/
def clearFits : List SubsampleInfo → Nat → Nat → Bool
  | [], _, _ => true
  | sub :: rest, len, off =>
    let off1 := off + sub.BytesOfClearData
    if 0 < sub.BytesOfProtectedData then
      decide (off1 ≤ len) && clearFits rest len (min (off1 + sub.BytesOfProtectedData) len)
    else clearFits rest len off1

/-- Layout check for a parsed subsample table against the raw buffer: each
entry's clear length is the big-endian 16-bit value at its position and its
protected length the big-endian 32-bit value right after, entries packed in
6-byte records from `off`. -/
def subsBytesAt (data : List Nat) : Nat → List SubsampleInfo → Bool
  | _, [] => true
  | off, sub :: rest =>
    decide (sub.BytesOfClearData = beVal ((data.drop off).take 2)) &&
    decide (sub.BytesOfProtectedData = beVal ((data.drop (off + 2)).take 4)) &&
    subsBytesAt data (off + 6) rest

/-- Layout check for a parsed SENC sample table against the raw buffer: each
entry holds the 8 IV bytes at its position, a subsample list whose length
equals the 2-byte count following the IV, and that list matches the 6-byte
subsample records that follow; the next entry starts right after. -/
def entriesBytesAt (data : List Nat) : Nat → List SampleEncryptionInfo → Bool
  | _, [] => true
  | off, s :: rest =>
    decide (s.IV = (data.drop off).take 8) &&
    decide (s.Subsamples.length = beVal ((data.drop (off + 8)).take 2)) &&
    subsBytesAt data (off + 10) s.Subsamples &&
    entriesBytesAt data (off + 10 + 6 * s.Subsamples.length) rest

/-- A SENC box with the subsample flag set, one sample and one subsample. -/
def senc1 : List Nat :=
  [0, 0, 0, 32, 115, 101, 110, 99, 0, 0, 0, 2, 0, 0, 0, 1] ++ List.replicate 8 3 ++
    [0, 1, 0, 5, 0, 0, 0, 7]

/-- The box that parsing `senc1` produces. -/
def sencBox1 : SencBox :=
  ⟨⟨32, [115, 101, 110, 99]⟩, 2, [⟨[3, 3, 3, 3, 3, 3, 3, 3], [⟨5, 7⟩]⟩]⟩

/-- A 48-byte version-1 PSSH box whose KID count field holds `0x10000001`:
the 32-bit product `kidCount * 16` wraps to 16, so the KID-array length check
passes although the buffer is about 4 GiB too short. -/
def psshWrapData : List Nat :=
  [0, 0, 0, 48, 112, 115, 115, 104, 1, 0, 0, 0] ++ List.replicate 16 5 ++
    [16, 0, 0, 1] ++ List.replicate 16 6

/-- A valid 52-byte version-1 PSSH box with one KID and no trailing data. -/
def pssh52 : List Nat :=
  [0, 0, 0, 52, 112, 115, 115, 104, 1, 0, 0, 0] ++ List.replicate 16 5 ++
    [0, 0, 0, 1] ++ List.replicate 16 7 ++ [0, 0, 0, 0]

/-- The box that parsing `pssh52` produces. -/
def psshBox52 : PsshBox :=
  ⟨⟨52, [112, 115, 115, 104]⟩, 1, [0, 0, 0], List.replicate 16 5, [List.replicate 16 7], []⟩

/-- A 30-byte version-1 PSSH box truncated before the KID count field. -/
def pssh30 : List Nat :=
  [0, 0, 0, 30, 112, 115, 115, 104, 1, 0, 0, 0] ++ List.replicate 16 5 ++ [0, 0]

/-- A TENC v0 box declaring size 34 and a 5-byte constant IV, truncated
after the constant-IV size byte (33 bytes in all). -/
def tencTrunc : List Nat :=
  [0, 0, 0, 34, 116, 101, 110, 99, 0, 0, 0, 0, 0, 0, 1, 0] ++ List.replicate 16 9 ++ [5]

/-- A SENC box declaring 2 samples but holding only one 8-byte IV. -/
def sencTrunc : List Nat :=
  [0, 0, 0, 20, 115, 101, 110, 99, 0, 0, 0, 0, 0, 0, 0, 2] ++ List.replicate 8 3

theorem length_xorChunk (s : List Nat) (lo hi pos : Nat) (ks : Nat → Nat) :
    (xorChunk s lo hi pos ks).length = s.length := by
  simp [xorChunk]

theorem getD_xorChunk (s : List Nat) (lo hi pos : Nat) (ks : Nat → Nat) (i : Nat)
    (h : i < s.length) :
    (xorChunk s lo hi pos ks).getD i 0 =
      if lo ≤ i ∧ i < hi then s.getD i 0 ^^^ ks (pos + (i - lo)) else s.getD i 0 := by
  have h2 : i < (xorChunk s lo hi pos ks).length := by rw [length_xorChunk]; exact h
  rw [List.getD_eq_getElem _ _ h2]
  simp only [List.getD_eq_getElem _ _ h]
  simp [xorChunk, List.get_eq_getElem]

theorem xorChunk_xorChunk (s : List Nat) (lo hi pos : Nat) (ks : Nat → Nat) :
    xorChunk (xorChunk s lo hi pos ks) lo hi pos ks = s := by
  apply List.ext_getElem (by simp [length_xorChunk])
  intro i h1 h2
  simp [xorChunk, List.get_eq_getElem]
  split
  · exact Nat.xor_cancel_right _ _
  · rfl

theorem xorChunk_comm (s : List Nat) (lo hi q lo2 hi2 q2 : Nat) (ks : Nat → Nat)
    (hd : hi ≤ lo2) :
    xorChunk (xorChunk s lo hi q ks) lo2 hi2 q2 ks =
      xorChunk (xorChunk s lo2 hi2 q2 ks) lo hi q ks := by
  apply List.ext_getElem (by simp [length_xorChunk])
  intro i h1 h2
  by_cases hA : lo ≤ i ∧ i < hi <;> by_cases hB : lo2 ≤ i ∧ i < hi2 <;>
    simp [xorChunk, List.get_eq_getElem, hA, hB]
  omega

theorem subsampleWalk_length (ks : Nat → Nat) (subs : List SubsampleInfo) :
    ∀ s off pos t, subsampleWalk ks subs s off pos = some t → t.length = s.length := by
  induction subs with
  | nil =>
    intro s off pos t h
    simp only [subsampleWalk, Option.some.injEq] at h
    rw [← h]
  | cons sub rest ih =>
    intro s off pos t h
    by_cases hp : 0 < sub.BytesOfProtectedData
    · by_cases he : min (off + sub.BytesOfClearData + sub.BytesOfProtectedData) s.length <
          off + sub.BytesOfClearData
      · simp [subsampleWalk, hp, he] at h
      · simp only [subsampleWalk, if_pos hp, if_neg he] at h
        rw [ih _ _ _ _ h, length_xorChunk]
    · simp only [subsampleWalk, if_neg hp] at h
      exact ih _ _ _ _ h

theorem subsampleWalk_xorChunk (ks : Nat → Nat) (subs : List SubsampleInfo) :
    ∀ s off pos lo hi q, hi ≤ off →
      subsampleWalk ks subs (xorChunk s lo hi q ks) off pos =
        (subsampleWalk ks subs s off pos).map fun u => xorChunk u lo hi q ks := by
  induction subs with
  | nil => intro s off pos lo hi q hle; simp [subsampleWalk]
  | cons sub rest ih =>
    intro s off pos lo hi q hle
    by_cases hp : 0 < sub.BytesOfProtectedData
    · by_cases he : min (off + sub.BytesOfClearData + sub.BytesOfProtectedData) s.length <
          off + sub.BytesOfClearData
      · simp [subsampleWalk, hp, he, length_xorChunk]
      · simp only [subsampleWalk, if_pos hp, length_xorChunk, if_neg he]
        rw [xorChunk_comm _ _ _ _ _ _ _ _ (by omega)]
        exact ih _ _ _ _ _ _ (by omega)
    · simp only [subsampleWalk, if_neg hp]
      exact ih _ _ _ _ _ _ (by omega)

theorem subsampleWalk_invol (ks : Nat → Nat) (subs : List SubsampleInfo) :
    ∀ s off pos t, subsampleWalk ks subs s off pos = some t →
      subsampleWalk ks subs t off pos = some s := by
  induction subs with
  | nil =>
    intro s off pos t h
    simp only [subsampleWalk, Option.some.injEq] at h
    simp [subsampleWalk, h]
  | cons sub rest ih =>
    intro s off pos t h
    have hlen : t.length = s.length := subsampleWalk_length ks (sub :: rest) _ _ _ _ h
    by_cases hp : 0 < sub.BytesOfProtectedData
    · by_cases he : min (off + sub.BytesOfClearData + sub.BytesOfProtectedData) s.length <
          off + sub.BytesOfClearData
      · simp [subsampleWalk, hp, he] at h
      · simp only [subsampleWalk, if_pos hp, if_neg he] at h
        simp only [subsampleWalk, if_pos hp, hlen, if_neg he]
        rw [subsampleWalk_xorChunk ks rest t _ _ _ _ _ (le_refl _), ih _ _ _ _ h]
        simp [xorChunk_xorChunk]
    · simp only [subsampleWalk, if_neg hp] at h ⊢
      exact ih _ _ _ _ h

theorem subsampleWalk_isSome (ks : Nat → Nat) (subs : List SubsampleInfo) :
    ∀ s off pos, clearFits subs s.length off = true →
      (subsampleWalk ks subs s off pos).isSome := by
  induction subs with
  | nil => intro s off pos _; simp [subsampleWalk]
  | cons sub rest ih =>
    intro s off pos hfit
    by_cases hp : 0 < sub.BytesOfProtectedData
    · simp only [clearFits, if_pos hp, Bool.and_eq_true, decide_eq_true_eq] at hfit
      have he : ¬ (min (off + sub.BytesOfClearData + sub.BytesOfProtectedData) s.length <
          off + sub.BytesOfClearData) := by omega
      simp only [subsampleWalk, if_pos hp, if_neg he]
      exact ih _ _ _ (by rw [length_xorChunk]; exact hfit.2)
    · simp only [clearFits, if_neg hp] at hfit
      simp only [subsampleWalk, if_neg hp]
      exact ih _ _ _ hfit

/-- Claim C3: `DecryptSample` is self-inverse — whenever one application with
a given info and cipher completes, applying it again with the same info and
cipher restores the original buffer exactly (the CTR XOR keystream and the
subsample pattern are identical on both passes). -/
theorem DecryptSample_self_inverse (sample : List Nat) (info : Option SampleEncryptionInfo)
    (E : List Nat → List Nat) (t : List Nat) (h : DecryptSample sample info E = some t) :
    DecryptSample t info E = some sample := by
  cases info with
  | none =>
    simp only [DecryptSample, Option.some.injEq] at h
    simp [DecryptSample, h]
  | some inf =>
    by_cases h0 : inf.IV.length = 0
    · simp only [DecryptSample, if_pos h0, Option.some.injEq] at h
      simp [DecryptSample, h0, h]
    · by_cases h16 :
        (if inf.IV.length = 8 then goCopy (List.replicate 16 0) inf.IV else inf.IV).length ≠ 16
      · simp only [DecryptSample, if_neg h0, if_pos h16] at h
        cases h
      · cases hs : inf.Subsamples.isEmpty
        · simp only [DecryptSample, if_neg h0, if_neg h16, hs] at h ⊢
          simp only [Bool.false_eq_true, if_false] at h ⊢
          exact subsampleWalk_invol _ _ _ _ _ _ h
        · simp only [DecryptSample, if_neg h0, if_neg h16, hs, if_true,
            Option.some.injEq] at h ⊢
          rw [← h, length_xorChunk]
          exact xorChunk_xorChunk _ _ _ _ _

/-- Witness for C3 at a concrete input: a 3-byte sample, an 8-byte IV and the
all-zero cipher round-trip to the original buffer. -/
theorem DecryptSample_self_inverse_witness :
    DecryptSample [1, 2, 3] (some ⟨List.replicate 8 1, []⟩) cipherZeros = some [1, 2, 3] :=
  DecryptSample_self_inverse [1, 2, 3] (some ⟨List.replicate 8 1, []⟩) cipherZeros [1, 2, 3]
    (by decide)

/-- Claim C2 is false as stated: `DecryptSample` can panic.  With a 3-byte
sample and a subsample declaring 10 clear bytes then 1 protected byte, the
running offset (10) passes the end of the sample (3), and the Go code slices
`sample[10:3]`, which panics (`none` in the embedding). -/
theorem DecryptSample_panic_cex :
    DecryptSample [0, 0, 0] (some ⟨List.replicate 8 1, [⟨10, 1⟩]⟩) cipherOnes = none := by
  decide

/-- Claim C2 (amended): `DecryptSample` reports no error value, and it
completes without panic — leaving the sample untouched when `info` is absent
or its IV empty, and silently clamping protected overruns — provided the
stored IV length is 0, 8 or 16 bytes and the running clear-data offsets never
pass the end of the sample. -/
theorem DecryptSample_total (sample : List Nat) (info : Option SampleEncryptionInfo)
    (E : List Nat → List Nat)
    (h : ∀ inf, info = some inf → inf.IV.length = 0 ∨
      ((inf.IV.length = 8 ∨ inf.IV.length = 16) ∧
        clearFits inf.Subsamples sample.length 0 = true)) :
    (DecryptSample sample info E).isSome = true := by
  cases info with
  | none => simp [DecryptSample]
  | some inf =>
    rcases h inf rfl with h0 | ⟨hlen, hfit⟩
    · simp [DecryptSample, h0]
    · by_cases h0 : inf.IV.length = 0
      · simp [DecryptSample, h0]
      · have h16 :
          (if inf.IV.length = 8 then goCopy (List.replicate 16 0) inf.IV else inf.IV).length
            = 16 := by
          rcases hlen with h8 | hl16
          · simp [h8, goCopy]
          · simp [hl16]
        simp only [DecryptSample, if_neg h0]
        rw [if_neg (by omega)]
        cases hs : inf.Subsamples.isEmpty
        · simp only [hs, Bool.false_eq_true, if_false]
          exact subsampleWalk_isSome _ _ _ _ _ hfit
        · simp [hs]

/-- Witness for the amended C2 at a concrete input: a 2-byte sample with one
in-bounds subsample decrypts without panic. -/
theorem DecryptSample_total_witness :
    (DecryptSample [5, 6] (some ⟨List.replicate 8 1, [⟨1, 1⟩]⟩) cipherOnes).isSome = true :=
  DecryptSample_total [5, 6] (some ⟨List.replicate 8 1, [⟨1, 1⟩]⟩) cipherOnes
    (by intro inf hinf; injection hinf with h; subst h; decide)

/-- Claim C1 is false as stated: with a 100-byte all-zero sample, subsamples
`[{clear:10, protected:20}, {clear:5, protected:65}]` and an all-ones CTR
keystream, byte 35 of the output differs from the input even though it lies
outside the ranges `[10,30) ∪ [45,100)` the claim names — the second
protected range starts at 10+20+5 = 35, not 45. -/
theorem DecryptSample_ranges_cex :
    ((DecryptSample (List.replicate 100 0) (some sei1) cipherOnes).getD []).getD 35 0 = 1 ∧
      (List.replicate 100 (0 : Nat)).getD 35 0 = 0 ∧ ¬(10 ≤ 35 ∧ 35 < 30) ∧ ¬(45 ≤ 35) := by
  decide

/-- Claim C1 (amended): for a 100-byte sample and `sei1`'s subsample pattern,
`DecryptSample` completes and XOR-decrypts exactly the byte ranges `[10,30)`
(keystream positions 0..19) and `[35,100)` (keystream positions 20..84, the
declared 65 protected bytes ending exactly at the sample's end, so no
clamping occurs), leaving every other byte equal to the input ciphertext. -/
theorem DecryptSample_ranges (s : List Nat) (E : List Nat → List Nat) (h : s.length = 100) :
    ∃ t, DecryptSample s (some sei1) E = some t ∧
      (∀ i, i < 10 → t.getD i 0 = s.getD i 0) ∧
      (∀ i, 30 ≤ i → i < 35 → t.getD i 0 = s.getD i 0) ∧
      (∀ i, 10 ≤ i → i < 30 → t.getD i 0 = s.getD i 0 ^^^ ctrKS E iv1 (i - 10)) ∧
      (∀ i, 35 ≤ i → i < 100 → t.getD i 0 = s.getD i 0 ^^^ ctrKS E iv1 (20 + (i - 35))) := by
  have hval : DecryptSample s (some sei1) E =
      subsampleWalk (ctrKS E iv1) sei1.Subsamples s 0 0 := by
    simp only [DecryptSample]
    rw [if_neg (by decide : ¬ sei1.IV.length = 0),
      if_pos (by decide : sei1.IV.length = 8)]
    rw [if_neg (by decide : ¬ (goCopy (List.replicate 16 0) sei1.IV).length ≠ 16)]
    rw [if_neg (by decide : ¬ sei1.Subsamples.isEmpty = true)]
    rfl
  have hwalk : subsampleWalk (ctrKS E iv1) sei1.Subsamples s 0 0 =
      some (xorChunk (xorChunk s 10 30 0 (ctrKS E iv1)) 35 100 20 (ctrKS E iv1)) := by
    simp only [sei1, subsampleWalk, length_xorChunk, h]
    norm_num [Nat.min_def]
  refine ⟨_, hval.trans hwalk, ?_, ?_, ?_, ?_⟩
  · intro i hi
    rw [getD_xorChunk _ _ _ _ _ _ (by rw [length_xorChunk]; omega),
      if_neg (by omega), getD_xorChunk _ _ _ _ _ _ (by omega), if_neg (by omega)]
  · intro i hi1 hi2
    rw [getD_xorChunk _ _ _ _ _ _ (by rw [length_xorChunk]; omega),
      if_neg (by omega), getD_xorChunk _ _ _ _ _ _ (by omega), if_neg (by omega)]
  · intro i hi1 hi2
    rw [getD_xorChunk _ _ _ _ _ _ (by rw [length_xorChunk]; omega),
      if_neg (by omega), getD_xorChunk _ _ _ _ _ _ (by omega), if_pos (by omega)]
    simp
  · intro i hi1 hi2
    rw [getD_xorChunk _ _ _ _ _ _ (by rw [length_xorChunk]; omega),
      if_pos (by omega), getD_xorChunk _ _ _ _ _ _ (by omega), if_neg (by omega)]

/-- Witness for the amended C1 at a concrete input: the all-zero 100-byte
sample with the all-ones cipher. -/
theorem DecryptSample_ranges_witness :
    ∃ t, DecryptSample (List.replicate 100 0) (some sei1) cipherOnes = some t ∧
      (∀ i, i < 10 → t.getD i 0 = (List.replicate 100 (0 : Nat)).getD i 0) ∧
      (∀ i, 30 ≤ i → i < 35 → t.getD i 0 = (List.replicate 100 (0 : Nat)).getD i 0) ∧
      (∀ i, 10 ≤ i → i < 30 → t.getD i 0 =
        (List.replicate 100 (0 : Nat)).getD i 0 ^^^ ctrKS cipherOnes iv1 (i - 10)) ∧
      (∀ i, 35 ≤ i → i < 100 → t.getD i 0 =
        (List.replicate 100 (0 : Nat)).getD i 0 ^^^ ctrKS cipherOnes iv1 (20 + (i - 35))) :=
  DecryptSample_ranges (List.replicate 100 0) cipherOnes (by decide)

/-- Claim C4: for every valid TENC version-0 box with `isProtected = 1` and
`perSampleIVSize = 0` — byte 8 holding version 0 (so the parsed version field
is 0), byte 14 holding 1 and byte 15 holding 0 — if the declared size is
exactly 32 bytes the parse succeeds with `DefaultConstantIV` empty, and if
the declared size exceeds 32 (and the buffer holds the constant-IV tail) the
parse succeeds with `DefaultConstantIV` of length `DefaultConstantIVSize`. -/
theorem TencBox_constantIV (data : List Nat)
    (hv : (beVal ((data.drop 8).take 4) >>> 24) % 256 = 0)
    (hp : data[14]?.getD 0 = 1) (hiv : data[15]?.getD 0 = 0) :
    (beVal (data.take 4) = 32 → 32 ≤ data.length →
      (TencBox.Parse TencBox.empty data).1 = none ∧
        (TencBox.Parse TencBox.empty data).2.1.DefaultConstantIV = [] ∧
        (TencBox.Parse TencBox.empty data).2.2 = false) ∧
    (32 < beVal (data.take 4) → 33 + data[32]?.getD 0 ≤ data.length →
      (TencBox.Parse TencBox.empty data).1 = none ∧
        (TencBox.Parse TencBox.empty data).2.1.DefaultConstantIV.length =
          (TencBox.Parse TencBox.empty data).2.1.DefaultConstantIVSize ∧
        (TencBox.Parse TencBox.empty data).2.2 = false) := by
  constructor
  · intro hsz h32
    have h8 : ¬ data.length < 8 := by omega
    have h12' : ¬ data.length < 8 + 4 := by omega
    have h32' : ¬ data.length < 8 + 4 + 20 := by omega
    simp only [TencBox.Parse, BoxHeader.Parse, Parser.uint32, Parser.bytes, Parser.byte,
      if_neg h8, if_neg h12', if_pos hv, if_neg h32']
    norm_num [hp, hiv, hsz]
    exact ⟨rfl, by omega⟩
  · intro hsz hlen
    have h8 : ¬ data.length < 8 := by omega
    have h12' : ¬ data.length < 8 + 4 := by omega
    have h32' : ¬ data.length < 8 + 4 + 20 := by omega
    have h33 : ¬ data.length < 33 := by omega
    have hciv : ¬ data.length < 33 + data[32]?.getD 0 := by omega
    simp only [TencBox.Parse, BoxHeader.Parse, Parser.uint32, Parser.bytes, Parser.byte,
      if_neg h8, if_neg h12', if_pos hv, if_neg h32']
    norm_num [hp, hiv, hsz, h33, hciv]
    exact ⟨by omega, by omega⟩

/-- Witness for C4 at concrete boxes: `tenc32` (declared size 32, no constant
IV) and `tenc35` (declared size 35, 2-byte constant IV). -/
theorem TencBox_constantIV_witness :
    ((TencBox.Parse TencBox.empty tenc32).1 = none ∧
      (TencBox.Parse TencBox.empty tenc32).2.1.DefaultConstantIV = [] ∧
      (TencBox.Parse TencBox.empty tenc32).2.2 = false) ∧
    ((TencBox.Parse TencBox.empty tenc35).1 = none ∧
      (TencBox.Parse TencBox.empty tenc35).2.1.DefaultConstantIV.length =
        (TencBox.Parse TencBox.empty tenc35).2.1.DefaultConstantIVSize ∧
      (TencBox.Parse TencBox.empty tenc35).2.2 = false) :=
  ⟨(TencBox_constantIV tenc32 (by decide) (by decide) (by decide)).1 (by decide) (by decide),
   (TencBox_constantIV tenc35 (by decide) (by decide) (by decide)).2 (by decide) (by decide)⟩

/-- Claim C9 is false as stated: on a version-1 TENC box the parse does
return success, but the structure is not left at zero values — the parsed
`Version` field is 1, not 0 (and `Header` is populated too). -/
theorem TencBox_nonzero_version_cex :
    (TencBox.Parse TencBox.empty tenc12).1 = none ∧
      (TencBox.Parse TencBox.empty tenc12).2.1.Version = 1 ∧
      (TencBox.Parse TencBox.empty tenc12).2.1.Header.Size = 12 := by decide

/-- Claim C9 (amended): for every TENC box whose parsed version is nonzero
(and whose buffer holds the header and the 4-byte version/flags word),
`TencBox.Parse` returns success with `Header`, `Version` and `Flags`
populated and every other field left at its zero value. -/
theorem TencBox_nonzero_version (data : List Nat) (h12 : 12 ≤ data.length)
    (hv : (beVal ((data.drop 8).take 4) >>> 24) % 256 ≠ 0) :
    TencBox.Parse TencBox.empty data =
      (none,
       { TencBox.empty with
           Header := ⟨beVal (data.take 4), (data.drop 4).take 4⟩,
           Version := (beVal ((data.drop 8).take 4) >>> 24) % 256,
           Flags := beVal ((data.drop 8).take 4) &&& 0x00FFFFFF },
       false) := by
  have h8 : ¬ data.length < 8 := by omega
  have h12' : ¬ data.length < 8 + 4 := by omega
  simp only [TencBox.Parse, BoxHeader.Parse, if_neg h8, Parser.uint32, Parser.bytes,
    if_neg h12', if_neg hv, decide_eq_false h12', Bool.or_false, TencBox.empty]

/-- Witness for the amended C9 at the concrete version-1 box `tenc12`. -/
theorem TencBox_nonzero_version_witness :
    TencBox.Parse TencBox.empty tenc12 =
      (none,
       { TencBox.empty with
           Header := ⟨12, [116, 101, 110, 99]⟩, Version := 1, Flags := 0 },
       false) :=
  TencBox_nonzero_version tenc12 (by decide) (by decide)

theorem subsampleEntries_length (n : Nat) (p : Parser) :
    (subsampleEntries n p).2.1.length = n := by
  induction n generalizing p with
  | zero => simp [subsampleEntries]
  | succ n ih =>
    by_cases hg : p.data.length < p.offset + 6
    · simp [subsampleEntries, hg]
    · simp [subsampleEntries, hg, ih]

theorem sencEntries_length (pr : Bool) (n : Nat) (p : Parser) :
    (sencEntries pr n p).2.1.length = n := by
  induction n generalizing p with
  | zero => simp [sencEntries]
  | succ n ih =>
    by_cases hg : p.data.length < p.offset + 8
    · simp [sencEntries, hg]
    · cases pr with
      | false => simp [sencEntries, hg, ih]
      | true =>
        by_cases hg2 : p.data.length < p.offset + 8 + 2
        · simp [sencEntries, Parser.bytes, hg, hg2]
        · simp only [sencEntries, if_neg hg, Parser.bytes, Parser.uint16,
            eq_self_iff_true, if_true, if_neg hg2]
          split
          · simp
          · simp [ih]

theorem sencEntries_flag_clear (n : Nat) (p : Parser) :
    ∀ s ∈ (sencEntries false n p).2.1, s.Subsamples = [] := by
  induction n generalizing p with
  | zero => simp [sencEntries]
  | succ n ih =>
    by_cases hg : p.data.length < p.offset + 8
    · intro s hs
      simp only [sencEntries, if_pos hg] at hs
      rw [List.eq_of_mem_replicate hs]
      rfl
    · intro s hs
      simp only [sencEntries, if_neg hg, Bool.false_eq_true, if_false] at hs
      rcases List.mem_cons.mp hs with h | h
      · rw [h]
      · exact ih _ s h

theorem subsampleEntries_ok (n : Nat) : ∀ (data : List Nat) (off : Nat) (ob : Bool),
    (subsampleEntries n ⟨data, off, ob⟩).1 = none →
      subsBytesAt data off (subsampleEntries n ⟨data, off, ob⟩).2.1 = true ∧
      (subsampleEntries n ⟨data, off, ob⟩).2.2 = ⟨data, off + 6 * n, ob⟩ := by
  induction n with
  | zero => intro data off ob h; simp [subsampleEntries, subsBytesAt]
  | succ n ih =>
    intro data off ob h
    by_cases hg : data.length < off + 6
    · simp [subsampleEntries, hg] at h
    · have hd2 : ¬ data.length < off + 2 := by omega
      have hd6 : ¬ data.length < off + 2 + 4 := by omega
      simp only [subsampleEntries, if_neg hg, Parser.uint16, Parser.uint32, Parser.bytes,
        decide_eq_false hd2, decide_eq_false hd6, Bool.or_false] at h ⊢
      obtain ⟨h1, h2⟩ := ih data (off + 2 + 4) ob h
      have e46 : off + 2 + 4 = off + 6 := by omega
      rw [e46] at h1 h2
      refine ⟨?_, ?_⟩
      · simp [subsBytesAt, h1]
      · rw [h2]
        simp
        omega

theorem sencEntries_ok (n : Nat) : ∀ (data : List Nat) (off : Nat) (ob : Bool),
    (sencEntries true n ⟨data, off, ob⟩).1 = none →
      entriesBytesAt data off (sencEntries true n ⟨data, off, ob⟩).2.1 = true := by
  induction n with
  | zero => intro data off ob h; simp [sencEntries, entriesBytesAt]
  | succ n ih =>
    intro data off ob h
    by_cases hg : data.length < off + 8
    · simp [sencEntries, hg] at h
    · by_cases hg2 : data.length < off + 8 + 2
      · simp [sencEntries, Parser.bytes, hg, hg2] at h
      · simp only [sencEntries, if_neg hg, Parser.bytes, Parser.uint16, eq_self_iff_true,
          if_true, if_neg hg2, decide_eq_false hg, decide_eq_false hg2, Bool.or_false] at h ⊢
        cases hsub : (subsampleEntries (beVal ((data.drop (off + 8)).take 2))
            ⟨data, off + 8 + 2, ob⟩).1 with
        | some e =>
          rw [hsub] at h
          simp at h
        | none =>
          simp only [hsub] at h ⊢
          obtain ⟨hs1, hs2⟩ := subsampleEntries_ok _ data (off + 8 + 2) ob hsub
          rw [hs2] at h ⊢
          have hm : (subsampleEntries (beVal ((data.drop (off + 8)).take 2))
              ⟨data, off + 8 + 2, ob⟩).2.1.length = beVal ((data.drop (off + 8)).take 2) :=
            subsampleEntries_length _ _
          have hrec := ih data (off + 8 + 2 + 6 * beVal ((data.drop (off + 8)).take 2)) ob h
          simp only [entriesBytesAt, Bool.and_eq_true, decide_eq_true_eq]
          refine ⟨⟨⟨trivial, hm⟩, ?_⟩, ?_⟩
          · have e : off + 8 + 2 = off + 10 := by omega
            rw [← e]
            exact hs1
          · rw [hm]
            have e : off + 10 + 6 * beVal ((data.drop (off + 8)).take 2) =
                off + 8 + 2 + 6 * beVal ((data.drop (off + 8)).take 2) := by omega
            rw [e]
            exact hrec

/-- Claim C5: for every SENC box that `SencBox.Parse` accepts, the sample
count equals the box's declared 4-byte count; with bit `0x000002` of the
24-bit flags clear every entry's subsample list is empty; with it set every
entry's subsample list has the length of that entry's parsed 2-byte count and
its `{clear : uint16, protected : uint32}` records appear in buffer order
(the `entriesBytesAt` layout check from offset 16). -/
theorem SencBox_subsample_table (b0 : SencBox) (data : List Nat) (b : SencBox) (ob : Bool)
    (h : SencBox.Parse b0 data = (none, b, ob)) :
    b.Samples.length = beVal ((data.drop 12).take 4) ∧
      (b.Flags &&& 0x000002 = 0 → ∀ s ∈ b.Samples, s.Subsamples = []) ∧
      (b.Flags &&& 0x000002 ≠ 0 → entriesBytesAt data 16 b.Samples = true) := by
  by_cases h8 : data.length < 8
  · simp [SencBox.Parse, BoxHeader.Parse, h8, Prod.mk.injEq] at h
  · by_cases h16 : data.length < 16
    · simp [SencBox.Parse, BoxHeader.Parse, h8, h16, Prod.mk.injEq] at h
    · have hd12 : ¬ data.length < 8 + 4 := by omega
      have hd16 : ¬ data.length < 8 + 4 + 4 := by omega
      simp only [SencBox.Parse, BoxHeader.Parse, if_neg h8, if_neg h16, Parser.uint32,
        Parser.bytes, decide_eq_false hd12, decide_eq_false hd16, Bool.or_false,
        Prod.mk.injEq] at h
      obtain ⟨h1, h2, h3⟩ := h
      norm_num at h1 h2
      subst h2
      refine ⟨?_, ?_, ?_⟩
      · simp only [sencEntries_length]
      · intro hflag s hs
        simp only at hs
        have hpres : (beVal ((data.drop 8).take 4) &&& 0x00FFFFFF &&& 0x000002 != 0) = false := by
          simp only at hflag
          simp [hflag]
        rw [hpres] at hs
        exact sencEntries_flag_clear _ _ s hs
      · intro hflag
        simp only at hflag ⊢
        have hpres : (beVal ((data.drop 8).take 4) &&& 0x00FFFFFF &&& 0x000002 != 0) = true := by
          simp [hflag]
        rw [hpres] at h1 ⊢
        exact sencEntries_ok _ data 16 false h1

/-- Witness for C5 at the concrete box `senc1` (flag set, one sample with one
subsample `{clear:5, protected:7}`). -/
theorem SencBox_subsample_table_witness :
    sencBox1.Samples.length = beVal ((senc1.drop 12).take 4) ∧
      (sencBox1.Flags &&& 0x000002 = 0 → ∀ s ∈ sencBox1.Samples, s.Subsamples = []) ∧
      (sencBox1.Flags &&& 0x000002 ≠ 0 → entriesBytesAt senc1 16 sencBox1.Samples = true) :=
  SencBox_subsample_table SencBox.empty senc1 sencBox1 false (by decide)

theorem goCopy_full (src : List Nat) (h : src.length = 16) :
    goCopy (List.replicate 16 0) src = src := by
  simp [goCopy, h]

theorem readKIDs_data (n : Nat) : ∀ p : Parser, (readKIDs n p).2.data = p.data := by
  induction n with
  | zero => intro p; simp [readKIDs]
  | succ n ih => intro p; simp [readKIDs, Parser.bytes, ih]

theorem readKIDs_offset (n : Nat) : ∀ p : Parser, (readKIDs n p).2.offset = p.offset + 16 * n := by
  induction n with
  | zero => intro p; simp [readKIDs]
  | succ n ih => intro p; simp [readKIDs, Parser.bytes, ih]; omega

theorem readKIDs_oob (n : Nat) : ∀ p : Parser, ((readKIDs n p).2.oob = true ↔
    (p.oob = true ∨ (0 < n ∧ p.data.length < p.offset + 16 * n))) := by
  induction n with
  | zero => intro p; simp [readKIDs]
  | succ n ih =>
    intro p
    simp only [readKIDs, Parser.bytes]
    rw [ih]
    simp only [Bool.or_eq_true, decide_eq_true_eq]
    constructor
    · rintro ((hob | hlt) | ⟨hn, hlt⟩)
      · exact Or.inl hob
      · exact Or.inr ⟨by omega, by omega⟩
      · exact Or.inr ⟨by omega, by omega⟩
    · rintro (hob | ⟨hn, hlt⟩)
      · exact Or.inl (Or.inl hob)
      · by_cases hl : p.data.length < p.offset + 16
        · exact Or.inl (Or.inr hl)
        · exact Or.inr ⟨by omega, by omega⟩

theorem readKIDs_len (n : Nat) : ∀ p : Parser, (readKIDs n p).1.length = n := by
  induction n with
  | zero => intro p; simp [readKIDs]
  | succ n ih => intro p; simp [readKIDs, ih]

theorem readKIDs_kids (n : Nat) : ∀ (data : List Nat) (off : Nat) (ob : Bool),
    off + 16 * n ≤ data.length →
    ∀ i, i < n → (readKIDs n ⟨data, off, ob⟩).1.getD i [] = (data.drop (off + 16 * i)).take 16 := by
  induction n with
  | zero => intro data off ob hlen i hi; omega
  | succ n ih =>
    intro data off ob hlen i hi
    have hkid : ((data.drop off).take 16).length = 16 := by
      simp [List.length_take, List.length_drop]
      omega
    cases i with
    | zero =>
      simp [readKIDs, Parser.bytes]
      exact goCopy_full _ hkid
    | succ i =>
      simp only [readKIDs, Parser.bytes, List.getD_cons_succ]
      rw [ih data (off + 16) _ (by omega) i (by omega)]
      have e : off + 16 + 16 * i = off + 16 * (i + 1) := by omega
      rw [e]

theorem psshTail_spec (b : PsshBox) (p : Parser) :
    (psshTail b p).2.1.KIDs = b.KIDs ∧
    (psshTail b p).2.1.Version = b.Version ∧
    ((psshTail b p).1 = none →
      ((psshTail b p).2.2 = p.oob ∧
       p.offset + 4 + beVal ((p.data.drop p.offset).take 4) ≤ p.data.length)) ∧
    ((psshTail b p).1 ≠ none → (psshTail b p).2.1.Data = b.Data) := by
  by_cases h1 : p.data.length < p.offset + 4
  · simp [psshTail, h1]
  · by_cases h2 : p.data.length < p.offset + 4 + beVal ((p.data.drop p.offset).take 4)
    · simp [psshTail, Parser.uint32, Parser.bytes, h1, h2]
    · simp [psshTail, Parser.uint32, Parser.bytes, h1, h2]
      omega

theorem psshTail_extract (B : PsshBox) (P : Parser) (b : PsshBox) (ob : Bool)
    (h : psshTail B P = (none, b, ob)) :
    b.KIDs = B.KIDs ∧ b.Version = B.Version ∧ ob = P.oob ∧
      P.offset + 4 + beVal ((P.data.drop P.offset).take 4) ≤ P.data.length := by
  obtain ⟨h1, h2, h3, _⟩ := psshTail_spec B P
  rw [h] at h1 h2 h3
  simp only [ne_eq] at h1 h2 h3
  obtain ⟨h4, h5⟩ := h3 trivial
  exact ⟨h1, h2, h4, h5⟩

/-- Claim C6: for every PSSH box that `PsshBox.Parse` accepts without an
out-of-bounds read, a version-0 box yields no key IDs regardless of the
buffer contents after the system ID, while a version ≥ 1 box yields exactly
as many 16-byte KIDs as the parsed 4-byte count at offset 28, in buffer
order starting at offset 32. -/
theorem PsshBox_kid_array (data : List Nat) (b : PsshBox)
    (h : PsshBox.Parse PsshBox.empty data = (none, b, false)) :
    (b.Version = 0 → b.KIDs = []) ∧
    (0 < b.Version →
      b.KIDs.length = beVal ((data.drop 28).take 4) ∧
      ∀ i, i < b.KIDs.length → b.KIDs.getD i [] = (data.drop (32 + 16 * i)).take 16) := by
  by_cases h8 : data.length < 8
  · simp [PsshBox.Parse, BoxHeader.Parse, h8, Prod.mk.injEq] at h
  · by_cases h28 : data.length < 28
    · simp [PsshBox.Parse, BoxHeader.Parse, h8, h28, Prod.mk.injEq] at h
    · have hd12 : ¬ data.length < 8 + 4 := by omega
      have hd28 : ¬ data.length < 8 + 4 + 16 := by omega
      simp only [PsshBox.Parse, BoxHeader.Parse, if_neg h8, if_neg h28, Parser.uint32,
        Parser.bytes, decide_eq_false hd12, decide_eq_false hd28, Bool.or_false,
        PsshBox.empty] at h
      norm_num at h
      by_cases hv : 0 < data[8]?.getD 0
      · rw [if_pos hv] at h
        by_cases hk32 : data.length < 32
        · rw [if_pos hk32] at h
          simp [Prod.mk.injEq] at h
        · rw [if_neg hk32] at h
          simp only [decide_eq_false hk32] at h
          by_cases hw : data.length < 32 + beVal ((data.drop 28).take 4) * 16 % 4294967296
          · rw [if_pos hw] at h
            simp [Prod.mk.injEq] at h
          · rw [if_neg hw] at h
            obtain ⟨hk, hv2, hoob, hlen⟩ := psshTail_extract _ _ _ _ h
            simp only [readKIDs_data, readKIDs_offset, readKIDs_len] at hk hv2 hoob hlen
            have hnoob : ¬ (32 + 16 * beVal ((data.drop 28).take 4) > data.length) := by
              intro hgt
              by_cases hK0 : beVal ((data.drop 28).take 4) = 0
              · omega
              · have : ((readKIDs (beVal ((data.drop 28).take 4))
                    ⟨data, 32, false⟩).2.oob = true) :=
                  (readKIDs_oob _ _).mpr (Or.inr ⟨by omega, by omega⟩)
                rw [← hoob] at this
                cases this
            refine ⟨?_, ?_⟩
            · intro h0
              rw [hv2] at h0
              omega
            · intro _
              rw [hk]
              simp only [readKIDs_len]
              refine ⟨trivial, ?_⟩
              intro i hi
              exact readKIDs_kids _ data 32 false (by omega) i hi
      · rw [if_neg hv] at h
        obtain ⟨hk, hv2, _, _⟩ := psshTail_extract _ _ _ _ h
        simp at hk hv2
        refine ⟨?_, ?_⟩
        · intro _
          rw [hk]
        · intro h0
          rw [hv2] at h0
          omega

/-- Witness for C6 at the concrete version-1 box `pssh52` (one KID). -/
theorem PsshBox_kid_array_witness :
    (psshBox52.Version = 0 → psshBox52.KIDs = []) ∧
    (0 < psshBox52.Version →
      psshBox52.KIDs.length = beVal ((pssh52.drop 28).take 4) ∧
      ∀ i, i < psshBox52.KIDs.length →
        psshBox52.KIDs.getD i [] = (pssh52.drop (32 + 16 * i)).take 16) :=
  PsshBox_kid_array pssh52 psshBox52 (by decide)

theorem psshTail_oob (b : PsshBox) (p : Parser) : (psshTail b p).2.2 = p.oob := by
  by_cases h1 : p.data.length < p.offset + 4
  · simp [psshTail, h1]
  · by_cases h2 : p.data.length < p.offset + 4 + beVal ((p.data.drop p.offset).take 4)
    · simp [psshTail, Parser.uint32, Parser.bytes, h1, h2]
    · simp [psshTail, Parser.uint32, Parser.bytes, h1, h2]

/-- Claim C7 (amended): `PsshBox.Parse` succeeds only when the buffer is long
enough at every checkpoint — the 28-byte minimum header, and (through the
KID count, KID array and data-size field) the declared data bytes — so a
buffer shorter than required at any of them makes it fail; and it performs no
out-of-bounds read provided the 32-bit product `kidCount * 16` does not wrap
(`kidCount < 2^28`). -/
theorem PsshBox_length_checks (b0 : PsshBox) (data : List Nat) :
    ((PsshBox.Parse b0 data).1 = none →
      28 ≤ data.length ∧
      (data[8]?.getD 0 = 0 → 32 + beVal ((data.drop 28).take 4) ≤ data.length) ∧
      (0 < data[8]?.getD 0 →
        36 + 16 * beVal ((data.drop 28).take 4) +
          beVal ((data.drop (32 + 16 * beVal ((data.drop 28).take 4))).take 4) ≤
            data.length)) ∧
    ((0 < data[8]?.getD 0 → beVal ((data.drop 28).take 4) * 16 < 4294967296) →
      (PsshBox.Parse b0 data).2.2 = false) := by
  by_cases h8 : data.length < 8
  · constructor
    · intro h
      simp [PsshBox.Parse, BoxHeader.Parse, h8] at h
    · intro _
      simp [PsshBox.Parse, BoxHeader.Parse, h8]
  · by_cases h28 : data.length < 28
    · constructor
      · intro h
        simp [PsshBox.Parse, BoxHeader.Parse, h8, h28] at h
      · intro _
        simp [PsshBox.Parse, BoxHeader.Parse, h8, h28]
    · have hd12 : ¬ data.length < 8 + 4 := by omega
      have hd28 : ¬ data.length < 8 + 4 + 16 := by omega
      simp only [PsshBox.Parse, BoxHeader.Parse, if_neg h8, if_neg h28, Parser.uint32,
        Parser.bytes, decide_eq_false hd12, decide_eq_false hd28, Bool.or_false,
        PsshBox.empty] at *
      norm_num
      by_cases hv : 0 < data[8]?.getD 0
      · rw [if_pos hv]
        by_cases hk32 : data.length < 32
        · rw [if_pos hk32]
          constructor
          · intro hnone
            simp at hnone
          · intro _
            rfl
        · rw [if_neg hk32]
          simp only [decide_eq_false hk32]
          by_cases hw : data.length < 32 + beVal ((data.drop 28).take 4) * 16 % 4294967296
          · rw [if_pos hw]
            constructor
            · intro hnone
              simp at hnone
            · intro _
              rfl
          · rw [if_neg hw]
            constructor
            · intro hnone
              have h3 := (psshTail_spec _
                (readKIDs (beVal ((data.drop 28).take 4)) ⟨data, 32, false⟩).2).2.2.1 hnone
              obtain ⟨_, hlen⟩ := h3
              rw [readKIDs_offset, readKIDs_data] at hlen
              have hlen2 : 32 + 16 * beVal ((data.drop 28).take 4) + 4 +
                  beVal ((data.drop (32 + 16 * beVal ((data.drop 28).take 4))).take 4) ≤
                    data.length := hlen
              exact ⟨by omega, fun h0 => by omega, fun _ => by omega⟩
            · intro hnw
              rw [psshTail_oob]
              have hnooob : ¬ ((readKIDs (beVal ((data.drop 28).take 4))
                  ⟨data, 32, false⟩).2.oob = true) := by
                rw [readKIDs_oob]
                rintro (hc | ⟨hc1, hc2⟩)
                · cases hc
                · have hc3 : data.length < 32 + 16 * beVal ((data.drop 28).take 4) := hc2
                  have hmod : beVal ((data.drop 28).take 4) * 16 % 4294967296 =
                      beVal ((data.drop 28).take 4) * 16 :=
                    Nat.mod_eq_of_lt (hnw hv)
                  omega
              exact Bool.not_eq_true _ |>.mp hnooob
      · rw [if_neg hv]
        constructor
        · intro hnone
          have h3 := (psshTail_spec _ (⟨data, 28, false⟩ : Parser)).2.2.1 hnone
          obtain ⟨_, hlen⟩ := h3
          have hlen2 : 28 + 4 + beVal ((data.drop 28).take 4) ≤ data.length := hlen
          exact ⟨by omega, fun h0 => by omega, fun hx => by omega⟩
        · intro _
          rw [psshTail_oob]

/-- Witness for the amended C7 at the concrete accepted box `pssh52`. -/
theorem PsshBox_length_checks_witness :
    (28 ≤ pssh52.length ∧
      (pssh52[8]?.getD 0 = 0 → 32 + beVal ((pssh52.drop 28).take 4) ≤ pssh52.length) ∧
      (0 < pssh52[8]?.getD 0 →
        36 + 16 * beVal ((pssh52.drop 28).take 4) +
          beVal ((pssh52.drop (32 + 16 * beVal ((pssh52.drop 28).take 4))).take 4) ≤
            pssh52.length)) ∧
    (PsshBox.Parse PsshBox.empty pssh52).2.2 = false :=
  ⟨(PsshBox_length_checks PsshBox.empty pssh52).1 (by decide),
   (PsshBox_length_checks PsshBox.empty pssh52).2 (by decide)⟩

theorem pssh_wrap_generic (data : List Nat) (hlen : data.length = 48)
    (hv : 0 < data[8]?.getD 0) (hK : beVal ((data.drop 28).take 4) = 268435457) :
    (PsshBox.Parse PsshBox.empty data).1 = some "pssh too short for data size" ∧
    (PsshBox.Parse PsshBox.empty data).2.2 = true := by
  have h8 : ¬ data.length < 8 := by omega
  have h28 : ¬ data.length < 28 := by omega
  have hd12 : ¬ data.length < 8 + 4 := by omega
  have hd28 : ¬ data.length < 8 + 4 + 16 := by omega
  have hk32 : ¬ data.length < 32 := by omega
  simp only [PsshBox.Parse, BoxHeader.Parse, if_neg h8, if_neg h28, Parser.uint32,
    Parser.bytes, decide_eq_false hd12, decide_eq_false hd28, Bool.or_false, PsshBox.empty]
  norm_num
  rw [if_pos hv, if_neg hk32]
  simp only [decide_eq_false hk32, hK]
  have hw : ¬ data.length < 32 + 268435457 * 16 % 4294967296 := by omega
  rw [if_neg hw]
  simp only [psshTail, readKIDs_data, readKIDs_offset]
  have hg : data.length < 32 + 16 * 268435457 + 4 := by omega
  rw [if_pos hg]
  have hoob2 : (readKIDs 268435457 (⟨data, 32, false⟩ : Parser)).2.oob = true :=
    (readKIDs_oob 268435457 ⟨data, 32, false⟩).mpr
      (Or.inr ⟨by norm_num, (by omega : data.length < 32 + 16 * 268435457)⟩)
  have hproj : ∀ (x : Option String) (y : PsshBox) (z : Bool), (x, y, z).2.2 = z :=
    fun _ _ _ => rfl
  refine ⟨?_, ?_⟩
  · rfl
  · rw [hproj]
    exact hoob2

theorem pssh_wrap_eval :
    (PsshBox.Parse PsshBox.empty psshWrapData).1 = some "pssh too short for data size" ∧
    (PsshBox.Parse PsshBox.empty psshWrapData).2.2 = true :=
  pssh_wrap_generic psshWrapData (by decide) (by decide) (by decide)

/-- Claim C7 is false as stated: on the 48-byte version-1 box `psshWrapData`
whose KID count is `0x10000001`, the wrapped 32-bit bounds check passes and
the KID loop reads past the end of the buffer (a Go slice panic, recorded by
the `oob` flag), so `PsshBox.Parse` does not avoid out-of-bounds reads on
every input. -/
theorem PsshBox_oob_cex : (PsshBox.Parse PsshBox.empty psshWrapData).2.2 = true :=
  pssh_wrap_eval.2

/-- Claim C10: the KID-array bounds check computes `kidCount * 16` in 32-bit
arithmetic; on `psshWrapData` (version 1, `kidCount = 0x10000001 ≥ 2^28`) the
product wraps to 16, the "pssh too short for KIDs" check passes although the
48-byte buffer is far shorter than `16 * kidCount` bytes, and the KID loop
then reads out of bounds. -/
theorem PsshBox_kid_count_wrap :
    (PsshBox.Parse PsshBox.empty psshWrapData).1 ≠ some "pssh too short for KIDs" ∧
    (PsshBox.Parse PsshBox.empty psshWrapData).2.2 = true ∧
    beVal ((psshWrapData.drop 28).take 4) = 268435457 ∧
    psshWrapData.length < 16 * beVal ((psshWrapData.drop 28).take 4) := by
  refine ⟨?_, pssh_wrap_eval.2, by decide, by decide⟩
  rw [pssh_wrap_eval.1]
  decide

/-- Claim C8 is false as stated: `PsshBox.Parse` fails on the truncated box
`pssh30` yet the receiver is not left at its prior state — `SystemID` has
already been overwritten with bytes from the failed parse. -/
theorem parse_atomicity_cex :
    (PsshBox.Parse PsshBox.empty pssh30).1 ≠ none ∧
    (PsshBox.Parse PsshBox.empty pssh30).2.1.SystemID ≠ PsshBox.empty.SystemID := by
  decide

/-- Claim C8 (amended): the parsers check length before each read and fail
without reading out of bounds, but they are not atomic — fields read before
the failing check keep their newly parsed values.  Fields at or after the
failing read keep their prior state: on any PSSH failure `Data` is untouched,
on any TENC failure `DefaultConstantIV` is untouched, and on any SENC failure
the sample table is either still the prior one (failure before the table) or
has exactly the declared length with unreached entries zero-valued. -/
theorem parse_error_fields :
    (∀ (b0 : PsshBox) (data : List Nat), (PsshBox.Parse b0 data).1 ≠ none →
      (PsshBox.Parse b0 data).2.1.Data = b0.Data) ∧
    (∀ (b0 : TencBox) (data : List Nat), (TencBox.Parse b0 data).1 ≠ none →
      (TencBox.Parse b0 data).2.1.DefaultConstantIV = b0.DefaultConstantIV) ∧
    (∀ (b0 : SencBox) (data : List Nat), (SencBox.Parse b0 data).1 ≠ none →
      (SencBox.Parse b0 data).2.1.Samples = b0.Samples ∨
      (SencBox.Parse b0 data).2.1.Samples.length = beVal ((data.drop 12).take 4)) := by
  refine ⟨?_, ?_, ?_⟩
  · intro b0 data
    cases hhd : BoxHeader.Parse data with
    | error e => simp [PsshBox.Parse, hhd]
    | ok hdr =>
      simp only [PsshBox.Parse, hhd]
      split_ifs with h1 h2 h3 h4
      · intro _
        rfl
      · intro _
        rfl
      · intro _
        rfl
      · intro h
        have hd := (psshTail_spec _ _).2.2.2 h
        rw [hd]
      · intro h
        have hd := (psshTail_spec _ _).2.2.2 h
        rw [hd]
  · intro b0 data
    cases hhd : BoxHeader.Parse data with
    | error e => simp [TencBox.Parse, hhd]
    | ok hdr =>
      simp only [TencBox.Parse, hhd]
      split_ifs <;> intro h <;> first | rfl | exact absurd rfl h
  · intro b0 data
    cases hhd : BoxHeader.Parse data with
    | error e => simp [SencBox.Parse, hhd]
    | ok hdr =>
      simp only [SencBox.Parse, hhd]
      split_ifs with h1
      · intro _
        left
        rfl
      · intro _
        right
        simp only [Parser.uint32, Parser.bytes, sencEntries_length]

/-- Witness for the amended C8 at concrete failing parses: a truncated PSSH
box keeps the prior `Data`, a truncated TENC box keeps the prior constant IV,
and a truncated SENC box has a sample table of the declared length. -/
theorem parse_error_fields_witness :
    (PsshBox.Parse { PsshBox.empty with Data := [9] } pssh30).2.1.Data = [9] ∧
    (TencBox.Parse { TencBox.empty with DefaultConstantIV := [4] }
      tencTrunc).2.1.DefaultConstantIV = [4] ∧
    ((SencBox.Parse SencBox.empty sencTrunc).2.1.Samples = SencBox.empty.Samples ∨
      (SencBox.Parse SencBox.empty sencTrunc).2.1.Samples.length =
        beVal ((sencTrunc.drop 12).take 4)) :=
  ⟨parse_error_fields.1 _ pssh30 (by decide),
   parse_error_fields.2.1 _ tencTrunc (by decide),
   parse_error_fields.2.2 _ sencTrunc (by decide)⟩
